import Mathlib

/-!
Shallow embedding of `telegram-to-md.py` (Telegram HTML export → Markdown
converter) and verification of its specification.

Python strings are modelled as `List Char`; regular-expression rewrites are
modelled by the equivalent structural list transformations; the BeautifulSoup
DOM is modelled by a tree of named elements with attributes and children.
-/

set_option maxHeartbeats 1000000

abbrev Str := List Char

/-- Characters matched by Python's `\s` on `str` patterns and stripped by
`str.strip()` (ASCII whitespace plus the Unicode whitespace characters). -/
def isPySpace (c : Char) : Bool :=
  let n := c.toNat
  n == 0x20 || (0x9 ≤ n && n ≤ 0xd) || (0x1c ≤ n && n ≤ 0x1f) ||
  n == 0x85 || n == 0xa0 || n == 0x1680 || (0x2000 ≤ n && n ≤ 0x200a) ||
  n == 0x2028 || n == 0x2029 || n == 0x202f || n == 0x205f || n == 0x3000

/-- The character class `[<>:"/\\|?*\n\r]` of `clean_filename`'s first rewrite. -/
def badChar (c : Char) : Bool :=
  c == '<' || c == '>' || c == ':' || c == '"' || c == '/' || c == '\\' ||
  c == '|' || c == '?' || c == '*' || c == '\n' || c == '\r'

/-- The character class `[.,!?;:]` of `clean_filename`'s trailing-punctuation
rewrite. -/
def isPunct (c : Char) : Bool :=
  c == '.' || c == ',' || c == '!' || c == '?' || c == ';' || c == ':'

/-- Modelled from the spec: emoji detection is an external collaborator (the
`emoji` package), "treated as an external predicate that strips emoji glyphs
from text".  Modelled per character by the main emoji code-point blocks. -/
def isEmojiModel (c : Char) : Bool :=
  let n := c.toNat
  (0x1f000 ≤ n && n ≤ 0x1faff) || (0x2600 ≤ n && n ≤ 0x27bf) ||
  (0x2b00 ≤ n && n ≤ 0x2bff) || n == 0xfe0f

/-- `re.sub(r'[<>:"/\\|?*\n\r]', ' ', text)`. -/
def replaceBad (l : Str) : Str :=
  l.map (fun c => if badChar c then ' ' else c)

/-- `re.sub(r'[.,!?;:]+$', '', clean)`: drop the maximal trailing run of
punctuation characters (after the first rewrite the string holds no newline,
so `$` only matches at the very end). -/
def stripTrailingPunct (l : Str) : Str :=
  (l.reverse.dropWhile isPunct).reverse

/-- Helper for `re.sub(r'\s+', ' ', clean)`: the flag records whether the
previous character was whitespace (in which case further whitespace of the
same run is dropped). -/
def collapseWSAux : Bool → Str → Str
  | _, [] => []
  | prev, c :: rest =>
    if isPySpace c then
      if prev then collapseWSAux true rest else ' ' :: collapseWSAux true rest
    else c :: collapseWSAux false rest

/-- `re.sub(r'\s+', ' ', clean)`: replace each maximal whitespace run by one
space. -/
def collapseWS (l : Str) : Str := collapseWSAux false l

/-- Python `str.strip()`. -/
def pyStrip (l : Str) : Str :=
  ((l.dropWhile isPySpace).reverse.dropWhile isPySpace).reverse

/-- Python `s.rsplit(' ', 1)[0]`: everything strictly before the last space,
or the whole string when it holds no space. -/
def rsplit1 (l : Str) : Str :=
  if l.contains ' ' then ((l.reverse.dropWhile (fun c => c != ' ')).tail).reverse
  else l

/-- The normalization pipeline of `clean_filename` before the length cap:
emoji removal, invalid-character replacement, trailing-punctuation removal,
whitespace collapsing and trimming. -/
def normalizeStem (isEmoji : Char → Bool) (s : Str) : Str :=
  pyStrip (collapseWS (stripTrailingPunct (replaceBad
    (s.filter (fun c => !(isEmoji c))))))

/-- `clean_filename`: "Convert text to a valid filename by removing invalid
characters and emojis", with the 100-character cap cut back at the last space
of the truncated prefix. -/
def clean_filename (isEmoji : Char → Bool) (s : Str) : Str :=
  if 100 < (normalizeStem isEmoji s).length then
    rsplit1 ((normalizeStem isEmoji s).take 100)
  else normalizeStem isEmoji s

/-- A parsed DOM node: either a text node (`NavigableString`) or an element
with a tag name, attributes and ordered children. -/
inductive Node where
  | text : Str → Node
  | elem : Str → List (Str × Str) → List Node → Node

/-- `Tag.get(key, '')`: value of the first attribute named `key`, or `""`. -/
def getAttr (attrs : List (Str × Str)) (k : Str) : Str :=
  match attrs.find? (fun p => p.1 == k) with
  | some p => p.2
  | none => []

/-- The attributes of a node (text nodes have none). -/
def attrsOf : Node → List (Str × Str)
  | .text _ => []
  | .elem _ a _ => a

mutual

/-- BeautifulSoup `get_text()`: the concatenated text of all descendants. -/
def get_text : Node → Str
  | .text s => s
  | .elem _ _ cs => getTextList cs

def getTextList : List Node → Str
  | [] => []
  | c :: rest => get_text c ++ getTextList rest

end

mutual

/-- `convert_tag_to_md`: walk the tag's children left to right and join the
parts.  (The pipeline only ever calls it on element nodes.) -/
def convert_tag_to_md : Node → Str
  | .text s => s
  | .elem _ _ cs => convertChildren cs

/-- The `for child in tag.children` loop of `convert_tag_to_md`. -/
def convertChildren : List Node → Str
  | [] => []
  | c :: rest => convertChild c ++ convertChildren rest

/-- The per-child dispatch in the body of `convert_tag_to_md`'s loop. -/
def convertChild : Node → Str
  | .text s => s
  | .elem name attrs cs =>
    if name = "strong".toList ∨ name = "b".toList then
      let content := pyStrip (convertChildren cs)
      if content = [] then [] else "**".toList ++ content ++ "**".toList
    else if name = "em".toList ∨ name = "i".toList then
      let content := pyStrip (convertChildren cs)
      if content = [] then [] else "*".toList ++ content ++ "*".toList
    else if name = "code".toList then
      "`".toList ++ convertChildren cs ++ "`".toList
    else if name = "pre".toList then
      "```\n".toList ++ pyStrip (convertChildren cs) ++ "\n```".toList
    else if name = "a".toList then
      let t := pyStrip (getTextList cs)
      let href := getAttr attrs "href".toList
      if t ≠ [] ∧ href ≠ [] then
        "[".toList ++ t ++ "](".toList ++ href ++ ")".toList
      else if href ≠ [] then href
      else []
    else if name = "br".toList then ['\n']
    else if name = "ul".toList then ulItems cs
    else if name = "ol".toList then olItems 1 cs
    else if name = "li".toList then convertChildren cs
    else if name = "div".toList then
      let d := convertChildren cs
      if d = [] then [] else d ++ ['\n']
    else convertChildren cs

/-- `find_all('li', recursive=False)` over a `ul`'s children, emitting
`* {item}\n` per direct `li` child. -/
def ulItems : List Node → Str
  | [] => []
  | .elem n _ ics :: rest =>
    if n = "li".toList then
      "* ".toList ++ pyStrip (convertChildren ics) ++ ['\n'] ++ ulItems rest
    else ulItems rest
  | .text _ :: rest => ulItems rest

/-- `enumerate(find_all('li', recursive=False), 1)` over an `ol`'s children,
emitting `{i}. {item}\n` per direct `li` child. -/
def olItems : Nat → List Node → Str
  | _, [] => []
  | i, .elem n _ ics :: rest =>
    if n = "li".toList then
      (toString i).toList ++ ". ".toList ++ pyStrip (convertChildren ics) ++
        ['\n'] ++ olItems (i + 1) rest
    else olItems i rest
  | i, .text _ :: rest => olItems i rest

end

/-- The replacement for one newline run under `re.sub(r'\n{3,}', '\n\n', s)`:
runs of three or more newlines become two, shorter runs stay. -/
def emitNL (k : Nat) : Str := if 3 ≤ k then ['\n', '\n'] else List.replicate k '\n'

/-- Scan for `re.sub(r'\n{3,}', '\n\n', s)`; `k` counts the newlines of the
current run. -/
def collapseNLAux : Nat → Str → Str
  | k, [] => emitNL k
  | k, c :: rest =>
    if c = '\n' then collapseNLAux (k + 1) rest
    else emitNL k ++ c :: collapseNLAux 0 rest

/-- `re.sub(r'\n{3,}', '\n\n', md_content)` of the pipeline. -/
def collapseNewlines (l : Str) : Str := collapseNLAux 0 l

/-- Run-length encoding of a string, used to state the newline-collapsing
property. -/
def rle : Str → List (Char × Nat)
  | [] => []
  | c :: rest =>
    match rle rest with
    | [] => [(c, 1)]
    | (d, k) :: t => if c = d then (c, k + 1) :: t else (c, 1) :: (d, k) :: t

/-- Line-boundary characters of Python `str.splitlines()`. -/
def isLineBreak (c : Char) : Bool :=
  let n := c.toNat
  n == 0xa || n == 0xd || n == 0xb || n == 0xc || (0x1c ≤ n && n ≤ 0x1e) ||
  n == 0x85 || n == 0x2028 || n == 0x2029

/-- Scan for Python `str.splitlines()`; `acc` holds the current line reversed
(`\r\n` counts as a single boundary). -/
def splitlinesAux : Str → Str → List Str
  | acc, [] => if acc.isEmpty then [] else [acc.reverse]
  | acc, '\r' :: '\n' :: rest => acc.reverse :: splitlinesAux [] rest
  | acc, c :: rest =>
    if isLineBreak c then acc.reverse :: splitlinesAux [] rest
    else splitlinesAux (c :: acc) rest

/-- Python `str.splitlines()`. -/
def splitlines (l : Str) : List Str := splitlinesAux [] l

/-- `extract_first_meaningful_line`: first stripped non-blank line of length
at least 10, else the first stripped non-blank line, else `None`. -/
def extract_first_meaningful_line (text : Str) : Option Str :=
  let lines := ((splitlines text).map pyStrip).filter (fun l => !l.isEmpty)
  match lines.find? (fun l => decide (10 ≤ l.length)) with
  | some l => some l
  | none => lines.head?

/-- Scan for Python `str.split()` with no arguments: split on whitespace runs,
discarding empty fields. -/
def pySplitAux : Str → Str → List Str
  | acc, [] => if acc.isEmpty then [] else [acc.reverse]
  | acc, c :: rest =>
    if isPySpace c then
      if acc.isEmpty then pySplitAux [] rest
      else acc.reverse :: pySplitAux [] rest
    else pySplitAux (c :: acc) rest

/-- Python `str.split()` with no arguments. -/
def pySplit (l : Str) : List Str := pySplitAux [] l

/-- Value of a run of decimal digit characters. -/
def digitsToNat (l : Str) : Nat := l.foldl (fun a c => a * 10 + (c.toNat - 48)) 0

def isLeapYear (y : Nat) : Bool :=
  y % 4 == 0 && (y % 100 != 0 || y % 400 == 0)

def daysInMonth (y m : Nat) : Nat :=
  if m == 2 then (if isLeapYear y then 29 else 28)
  else if m == 4 || m == 6 || m == 9 || m == 11 then 30
  else 31

/-- `datetime.strptime(tok, '%d.%m.%Y')`: the token must be exactly
1-2 day digits, a dot, 1-2 month digits, a dot and 4 year digits, with the
day, month and year forming a valid calendar date (day first); any other
token raises `ValueError`, modelled as `none`. -/
def strptimeDMY (s : Str) : Option (Nat × Nat × Nat) :=
  match List.splitOn '.' s with
  | [a, b, c] =>
    if a.all Char.isDigit = true ∧ 1 ≤ a.length ∧ a.length ≤ 2 ∧
       b.all Char.isDigit = true ∧ 1 ≤ b.length ∧ b.length ≤ 2 ∧
       c.all Char.isDigit = true ∧ c.length = 4 then
      let d := digitsToNat a
      let m := digitsToNat b
      let y := digitsToNat c
      if 1 ≤ d ∧ 1 ≤ m ∧ m ≤ 12 ∧ 1 ≤ y ∧ d ≤ daysInMonth y m then
        some (d, m, y)
      else none
    else none
  | _ => none

/-- Left-pad a decimal number with zeros to width `w`. -/
def padNat (w n : Nat) : Str :=
  let s := (toString n).toList
  List.replicate (w - s.length) '0' ++ s

/-- `date_obj.strftime('%Y-%m-%d')` for the parsed (day, month, year). -/
def formatYMD : Nat × Nat × Nat → Str
  | (d, m, y) => padNat 4 y ++ "-".toList ++ padNat 2 m ++ "-".toList ++ padNat 2 d

/-- The date block of `extract_title_and_date` (source lines 135-143): take
the `title` attribute of the date element, split off its first whitespace
token, `strptime` it as `%d.%m.%Y`, and format success as `%Y-%m-%d`; a
missing element, empty token list or parse failure yields `None`. -/
def extract_date_str (dateDiv : Option Node) : Option Str :=
  match dateDiv with
  | none => none
  | some dd =>
    match pySplit (getAttr (attrsOf dd) "title".toList) with
    | [] => none
    | tok :: _ =>
      match strptimeDMY tok with
      | none => none
      | some x => some (formatYMD x)

/-- Python `str.lower()` restricted to the scripts occurring in the keyword
table (ASCII and Cyrillic). -/
def pyLowerChar (c : Char) : Char :=
  let n := c.toNat
  if 0x41 ≤ n ∧ n ≤ 0x5a then Char.ofNat (n + 0x20)
  else if 0x410 ≤ n ∧ n ≤ 0x42f then Char.ofNat (n + 0x20)
  else if n = 0x401 then Char.ofNat 0x451
  else c

def pyLower (l : Str) : Str := l.map pyLowerChar

/-- Whether `pre` is a leading run of `l`. -/
def leadsWith : Str → Str → Bool
  | [], _ => true
  | _ :: _, [] => false
  | a :: as, b :: bs => a == b && leadsWith as bs

/-- Python's `needle in hay` substring test. -/
def containsSub (needle : Str) : Str → Bool
  | [] => needle.isEmpty
  | c :: rest => leadsWith needle (c :: rest) || containsSub needle rest

/-- `get_tags_from_content`: substring search of fixed keyword lists in the
lower-cased `text + ' ' + author`; the result lists the matched categories in
the order produced by Python's `sorted` (design < management < product). -/
def get_tags_from_content (text author : Str) : List Str :=
  let s := pyLower (text ++ " ".toList ++ author)
  let hasAny := fun (terms : List Str) => terms.any (fun t => containsSub t s)
  (if hasAny ["design".toList, "дизайн".toList, "ux".toList, "ui".toList]
   then ["design".toList] else []) ++
  (if hasAny ["team".toList, "тимлид".toList, "команд".toList]
   then ["management".toList] else []) ++
  (if hasAny ["product".toList, "продакт".toList, "продукт".toList]
   then ["product".toList] else [])

/-- A message record: the results of `select_one('.text')`,
`select_one('.from_name')` and `select_one('.date')` on one
`.message.default.clearfix` element. -/
structure Message where
  text_div : Option Node
  from_name : Option Node
  date_div : Option Node

/-- `extract_title_and_date`: markdown-convert the body, pick the first
meaningful line, normalize it into a title; the date comes from the date
element's `title` attribute. -/
def extract_title_and_date : Message → Option Str × Option Str
  | ⟨none, _, _⟩ => (none, none)
  | ⟨some td, _, dd⟩ =>
    match extract_first_meaningful_line (convert_tag_to_md td) with
    | none => (none, none)
    | some fl => (some (clean_filename isEmojiModel fl), extract_date_str dd)

/-- The pipeline state of `convert_html_to_md`'s loop: the `last_author`
variable, the `used_filenames` set, the documents written so far and the
converted-message counter. -/
structure PState where
  last_author : Str
  used : List Str
  outputs : List (Str × Str)
  count : Nat
deriving DecidableEq

/-- Frontmatter assembly and `'\n'.join(frontmatter)` (source lines 217-227). -/
def assemble (dateStr : Option Str) (author : Str) (tags : List Str)
    (body : Str) : Str :=
  let fm : List Str :=
    ["---".toList]
    ++ (match dateStr with
        | some d => ["date: ".toList ++ d]
        | none => [])
    ++ ["author: \"".toList ++ author ++ "\"".toList]
    ++ (if tags.isEmpty then []
        else "tags:".toList :: tags.map (fun t => "  - ".toList ++ t))
    ++ ["---\n".toList, body]
  List.intercalate "\n".toList fm

/-- One iteration of `convert_html_to_md`'s message loop.  Note that the
source initializes `last_author` but never reassigns it, so the state's
`last_author` field is passed through unchanged. -/
def step : PState → Message → PState
  | st, ⟨none, _, _⟩ => st
  | st, ⟨some td, fname, dd⟩ =>
    if pyStrip (get_text td) = [] then st
    else
      let author := match fname with
        | some ad => pyStrip (get_text ad)
        | none => st.last_author
      let md_content := collapseNewlines (convert_tag_to_md td)
      let tags := get_tags_from_content md_content author
      match extract_title_and_date ⟨some td, fname, dd⟩ with
      | (none, _) => st
      | (some title, date_str) =>
        if title = [] then st
        else
          let filename := title ++ ".md".toList
          if filename ∈ st.used then st
          else
            { st with
              used := filename :: st.used
              outputs := st.outputs ++
                [(filename, assemble date_str author tags md_content)]
              count := st.count + 1 }

/-- The loop's initial state. -/
def initState : PState := ⟨"Unknown Author".toList, [], [], 0⟩

/-- `convert_html_to_md`'s whole message loop over the selected messages. -/
def runPipeline (msgs : List Message) : PState := msgs.foldl step initState

/-- The filename a message would be written under, `none` when one of the
loop's skip conditions fires first. -/
def filenameOf? : Message → Option Str
  | ⟨none, _, _⟩ => none
  | ⟨some td, fname, dd⟩ =>
    if pyStrip (get_text td) = [] then none
    else match extract_title_and_date ⟨some td, fname, dd⟩ with
      | (none, _) => none
      | (some t, _) => if t = [] then none else some (t ++ ".md".toList)

/-- The element names handled by a dedicated branch of `convert_tag_to_md`'s
child dispatch, in source order; everything else takes the fallback branch. -/
def handledNames : List Str :=
  ["strong".toList, "b".toList, "em".toList, "i".toList, "code".toList,
   "pre".toList, "a".toList, "br".toList, "ul".toList, "ol".toList,
   "li".toList, "div".toList]

/-- The emphasis marker a bold/italic element wraps its content in. -/
def emphMarker (name : Str) : Str :=
  if name = "strong".toList ∨ name = "b".toList then "**".toList
  else "*".toList

/-- Clamping of one run for the newline-collapse property: a run of three or
more newlines becomes a run of two, every other run is untouched. -/
def clampRun (p : Char × Nat) : Char × Nat :=
  if p.1 = '\n' ∧ 3 ≤ p.2 then (p.1, 2) else p

/-- A message with an explicit author "Alice". -/
def msgAlice : Message :=
  ⟨some (.elem "div".toList [] [.text "Alpha note from the morning".toList]),
   some (.elem "div".toList [] [.text "Alice".toList]), none⟩

/-- A message with no author element. -/
def msgNoAuthor : Message :=
  ⟨some (.elem "div".toList [] [.text "Beta note from the evening".toList]),
   none, none⟩

/-- A body whose only content is a hyperlink with a target and no visible
text: `get_text()` is empty but the markdown conversion is the bare target. -/
def linkOnlyBody : Node :=
  .elem "div".toList []
    [.elem "a".toList [("href".toList, "https://example.com".toList)] []]

/-- A message used for the duplicate-filename scenario. -/
def dupMsg : Message :=
  ⟨some (.elem "div".toList [] [.text "duplicate message title line".toList]),
   none, none⟩

/-- A date element whose `title` attribute parses. -/
def dateDivEx : Node :=
  .elem "div".toList [("title".toList, "15.03.2024 12:30:00 UTC+03:00".toList)] []

/-- A date element whose `title` attribute does not parse as `%d.%m.%Y`. -/
def badDateDiv : Node :=
  .elem "div".toList [("title".toList, "March 15 2024".toList)] []

/-! ### List infrastructure -/

theorem takePre {α : Type} (n : Nat) (l : List α) : l.take n <+: l :=
  List.take_prefix n l

theorem chainPre {α : Type} {R : α → α → Prop} {l₁ l : List α}
    (h : List.Chain' R l) (hp : l₁ <+: l) : List.Chain' R l₁ :=
  List.Chain'.prefix h hp

theorem chainInf {α : Type} {R : α → α → Prop} {l₁ l : List α}
    (h : List.Chain' R l) (hp : l₁ <:+: l) : List.Chain' R l₁ :=
  List.Chain'.infix h hp

theorem headOfPre {α : Type} {l₁ l₂ : List α} {c : α} (hp : l₁ <+: l₂)
    (h : l₁.head? = some c) : l₂.head? = some c := by
  obtain ⟨t, rfl⟩ := hp
  cases l₁ with
  | nil => simp at h
  | cons a u => simpa using h

theorem memOfHead {α : Type} {l : List α} {c : α} (h : l.head? = some c) :
    c ∈ l := by
  cases l with
  | nil => simp at h
  | cons a u =>
    rw [List.head?_cons, Option.some.injEq] at h
    subst h
    exact List.mem_cons_self a u

theorem memOfGetLast {α : Type} {l : List α} {c : α} (h : l.getLast? = some c) :
    c ∈ l :=
  List.mem_of_getLast?_eq_some h

theorem headDropWhileFalse {α : Type} (p : α → Bool) (l : List α) {c : α}
    (h : (l.dropWhile p).head? = some c) : p c = false := by
  have hh := List.head?_dropWhile_not p l
  rw [h] at hh
  exact hh

theorem dropWhileEqSelf {α : Type} {p : α → Bool} {l : List α}
    (h : ∀ c, l.head? = some c → p c = false) : l.dropWhile p = l := by
  cases l with
  | nil => rfl
  | cons a u => rw [List.dropWhile_cons, h a rfl]; simp

theorem revPreOfSuf {α : Type} {l₁ l₂ : List α} (h : l₁ <:+ l₂) :
    l₁.reverse <+: l₂.reverse := by
  obtain ⟨s, rfl⟩ := h
  exact ⟨s.reverse, by rw [← List.reverse_append]⟩

theorem infOfPre {α : Type} {l₁ l₂ : List α} (h : l₁ <+: l₂) : l₁ <:+: l₂ := by
  obtain ⟨t, rfl⟩ := h
  exact ⟨[], t, rfl⟩

/-! ### Facts about the filename normalizer's stages -/

theorem replaceBad_no_bad {l : Str} {c : Char} (h : c ∈ replaceBad l) :
    badChar c = false := by
  rw [replaceBad, List.mem_map] at h
  obtain ⟨a, -, rfl⟩ := h
  by_cases hb : badChar a = true
  · rw [if_pos hb]; decide
  · rw [if_neg hb]; simpa using hb

theorem stripTrailingPunct_sub (l : Str) : List.Sublist (stripTrailingPunct l) l := by
  have h := (List.dropWhile_sublist (l := l.reverse) isPunct).reverse
  simpa [stripTrailingPunct] using h

theorem pyStrip_sub (l : Str) : List.Sublist (pyStrip l) l := by
  have h1 := List.dropWhile_sublist (l := l) isPySpace
  have h2 :=
    (List.dropWhile_sublist (l := (l.dropWhile isPySpace).reverse) isPySpace).reverse
  rw [List.reverse_reverse] at h2
  unfold pyStrip
  exact h2.trans h1

theorem pyStrip_pre_drop (l : Str) : pyStrip l <+: l.dropWhile isPySpace := by
  obtain ⟨s, hs⟩ :=
    List.dropWhile_suffix (l := (l.dropWhile isPySpace).reverse) isPySpace
  refine ⟨s.reverse, ?_⟩
  unfold pyStrip
  rw [← List.reverse_append, hs, List.reverse_reverse]

theorem pyStrip_inf (l : Str) : pyStrip l <:+: l := by
  obtain ⟨u, hu⟩ := List.dropWhile_suffix (l := l) isPySpace
  obtain ⟨t, ht⟩ := pyStrip_pre_drop l
  refine ⟨u, t, ?_⟩
  rw [List.append_assoc, ht, hu]

theorem pyStrip_head {l : Str} {c : Char} (h : (pyStrip l).head? = some c) :
    isPySpace c = false :=
  headDropWhileFalse isPySpace l (headOfPre (pyStrip_pre_drop l) h)

theorem pyStrip_last {l : Str} {c : Char} (h : (pyStrip l).getLast? = some c) :
    isPySpace c = false := by
  unfold pyStrip at h
  rw [List.getLast?_reverse] at h
  exact headDropWhileFalse isPySpace (l.dropWhile isPySpace).reverse h

theorem mem_collapseWSAux {c : Char} :
    ∀ (l : Str) (b : Bool), c ∈ collapseWSAux b l → c = ' ' ∨ c ∈ l := by
  intro l
  induction l with
  | nil => intro b h; rw [collapseWSAux] at h; simp at h
  | cons a rest ih =>
    intro b h
    rw [collapseWSAux] at h
    by_cases hs : isPySpace a = true
    · rw [if_pos hs] at h
      cases b with
      | true =>
        rw [if_pos rfl] at h
        rcases ih true h with h' | h'
        · exact Or.inl h'
        · exact Or.inr (List.mem_cons_of_mem a h')
      | false =>
        rw [if_neg Bool.false_ne_true] at h
        rcases List.mem_cons.mp h with h' | h'
        · exact Or.inl h'
        · rcases ih true h' with h'' | h''
          · exact Or.inl h''
          · exact Or.inr (List.mem_cons_of_mem a h'')
    · rw [if_neg hs] at h
      rcases List.mem_cons.mp h with h' | h'
      · exact Or.inr (h' ▸ List.mem_cons_self a rest)
      · rcases ih false h' with h'' | h''
        · exact Or.inl h''
        · exact Or.inr (List.mem_cons_of_mem a h'')

theorem collapseWSAux_ws_space {c : Char} :
    ∀ (l : Str) (b : Bool), c ∈ collapseWSAux b l → isPySpace c = true → c = ' ' := by
  intro l
  induction l with
  | nil => intro b h; rw [collapseWSAux] at h; simp at h
  | cons a rest ih =>
    intro b h hws
    rw [collapseWSAux] at h
    by_cases hs : isPySpace a = true
    · rw [if_pos hs] at h
      cases b with
      | true => exact ih true (by rwa [if_pos rfl] at h) hws
      | false =>
        rw [if_neg Bool.false_ne_true] at h
        rcases List.mem_cons.mp h with h' | h'
        · exact h'
        · exact ih true h' hws
    · rw [if_neg hs] at h
      rcases List.mem_cons.mp h with h' | h'
      · exact absurd (h' ▸ hws) hs
      · exact ih false h' hws

theorem collapseWSAux_chain :
    ∀ (l : Str) (b : Bool),
      List.Chain' (fun a b => ¬(a = ' ' ∧ b = ' ')) (collapseWSAux b l) ∧
      (b = true → ∀ c, (collapseWSAux b l).head? = some c → isPySpace c = false) := by
  intro l
  induction l with
  | nil =>
    intro b
    rw [collapseWSAux]
    exact ⟨List.chain'_nil, by intro _ c h; simp at h⟩
  | cons a rest ih =>
    intro b
    rw [collapseWSAux]
    by_cases hs : isPySpace a = true
    · rw [if_pos hs]
      cases b with
      | true =>
        rw [if_pos rfl]
        exact (ih true)
      | false =>
        rw [if_neg Bool.false_ne_true]
        constructor
        · rw [List.chain'_cons']
          refine ⟨?_, (ih true).1⟩
          intro y hy
          have hws := (ih true).2 rfl y hy
          intro ⟨_, hy'⟩
          rw [hy'] at hws
          simp [isPySpace] at hws
        · intro hfalse
          exact absurd hfalse Bool.false_ne_true
    · rw [if_neg hs]
      constructor
      · rw [List.chain'_cons']
        refine ⟨?_, (ih false).1⟩
        intro y hy
        intro ⟨ha, _⟩
        rw [ha] at hs
        simp [isPySpace] at hs
      · intro _ c hc
        rw [List.head?_cons, Option.some.injEq] at hc
        subst hc
        simpa using hs

/-! ### Invariants of the normalized stem -/

theorem normalizeStem_ws_space {isE : Char → Bool} {s : Str} {c : Char}
    (h : c ∈ normalizeStem isE s) (hws : isPySpace c = true) : c = ' ' := by
  unfold normalizeStem at h
  have h2 := (pyStrip_sub _).subset h
  rw [collapseWS] at h2
  exact collapseWSAux_ws_space _ false h2 hws

theorem normalizeStem_chain (isE : Char → Bool) (s : Str) :
    List.Chain' (fun a b => ¬(a = ' ' ∧ b = ' ')) (normalizeStem isE s) := by
  unfold normalizeStem
  exact chainInf (collapseWSAux_chain _ false).1 (pyStrip_inf _)

theorem normalizeStem_no_bad {isE : Char → Bool} {s : Str} {c : Char}
    (h : c ∈ normalizeStem isE s) : badChar c = false := by
  unfold normalizeStem at h
  have h2 := (pyStrip_sub _).subset h
  rw [collapseWS] at h2
  rcases mem_collapseWSAux _ false h2 with h' | h'
  · rw [h']; decide
  · exact replaceBad_no_bad ((stripTrailingPunct_sub _).subset h')

theorem normalizeStem_no_emoji {isE : Char → Bool} {s : Str} {c : Char}
    (hsp : isE ' ' = false) (h : c ∈ normalizeStem isE s) : isE c = false := by
  unfold normalizeStem at h
  have h2 := (pyStrip_sub _).subset h
  rw [collapseWS] at h2
  rcases mem_collapseWSAux _ false h2 with h' | h'
  · rw [h']; exact hsp
  · have h3 := (stripTrailingPunct_sub _).subset h'
    rw [replaceBad, List.mem_map] at h3
    obtain ⟨a, ha, rfl⟩ := h3
    by_cases hb : badChar a = true
    · rw [if_pos hb]; exact hsp
    · rw [if_neg hb]
      have hf := List.of_mem_filter ha
      simpa using hf

theorem normalizeStem_head {isE : Char → Bool} {s : Str} {c : Char}
    (h : (normalizeStem isE s).head? = some c) : isPySpace c = false := by
  unfold normalizeStem at h
  exact pyStrip_head h

theorem normalizeStem_last {isE : Char → Bool} {s : Str} {c : Char}
    (h : (normalizeStem isE s).getLast? = some c) : isPySpace c = false := by
  unfold normalizeStem at h
  exact pyStrip_last h

theorem rsplit1Pre (l : Str) : rsplit1 l <+: l := by
  rw [rsplit1]
  split
  · have h1 : (l.reverse.dropWhile (fun c => c != ' ')).tail <:+ l.reverse :=
      (List.tail_suffix _).trans (List.dropWhile_suffix _)
    have h2 := revPreOfSuf h1
    rwa [List.reverse_reverse] at h2
  · exact ⟨[], List.append_nil l⟩

theorem rsplit1_len (l : Str) : (rsplit1 l).length ≤ l.length :=
  (rsplit1Pre l).length_le

theorem cleanPre (isE : Char → Bool) (s : Str) :
    clean_filename isE s <+: normalizeStem isE s := by
  rw [clean_filename]
  split
  · exact (rsplit1Pre _).trans (takePre 100 _)
  · exact ⟨[], List.append_nil _⟩

theorem rsplit1_last_not_space {t : Str}
    (hch : List.Chain' (fun a b => ¬(a = ' ' ∧ b = ' ')) t) {c : Char}
    (h : (rsplit1 t).getLast? = some c) : c ≠ ' ' := by
  rw [rsplit1] at h
  by_cases hcon : t.contains ' ' = true
  · rw [if_pos hcon] at h
    rw [List.getLast?_reverse] at h
    have hne : t.reverse.dropWhile (fun c => c != ' ') ≠ [] := by
      intro hnil
      rw [List.dropWhile_eq_nil_iff] at hnil
      have hm : (' ' : Char) ∈ t.reverse := by
        rw [List.mem_reverse]
        exact List.elem_iff.mp hcon
      have := hnil _ hm
      simp at this
    obtain ⟨x, hx⟩ := Option.ne_none_iff_exists'.mp
      (fun hno => hne (List.head?_eq_none_iff.mp hno))
    have hxsp : x = ' ' := by
      have := headDropWhileFalse (fun c => c != ' ') t.reverse hx
      simpa using this
    subst hxsp
    have hcons := List.cons_head?_tail (a := (' ' : Char)) (by rw [hx]; rfl)
    have hrev : List.Chain' (fun a b => ¬(a = ' ' ∧ b = ' ')) t.reverse := by
      rw [List.chain'_reverse]
      exact hch.imp (fun a b hab => by
        intro ⟨h1, h2⟩
        exact hab ⟨h2, h1⟩)
    have hsplit := List.takeWhile_append_dropWhile
      (p := fun c => c != ' ') (l := t.reverse)
    rw [← hsplit] at hrev
    have hdw := hrev.right_of_append
    rw [← hcons, List.chain'_cons'] at hdw
    have := hdw.1 c h
    intro hc
    exact this ⟨rfl, hc⟩
  · rw [if_neg hcon] at h
    intro hc
    subst hc
    have hm := memOfGetLast h
    exact hcon (List.elem_iff.mpr hm)

theorem cleanNoBad {isE : Char → Bool} {s : Str} {c : Char}
    (hc : c ∈ clean_filename isE s) : badChar c = false :=
  normalizeStem_no_bad ((cleanPre isE s).subset hc)

theorem cleanHeadWS {isE : Char → Bool} {s : Str} {c : Char}
    (hc : (clean_filename isE s).head? = some c) : isPySpace c = false :=
  normalizeStem_head (headOfPre (cleanPre isE s) hc)

theorem cleanLastWS {isE : Char → Bool} {s : Str} {c : Char}
    (hc : (clean_filename isE s).getLast? = some c) : isPySpace c = false := by
  rw [clean_filename] at hc
  by_cases hlen : 100 < (normalizeStem isE s).length
  · rw [if_pos hlen] at hc
    have hchain := chainPre (normalizeStem_chain isE s) (takePre 100 _)
    have hne := rsplit1_last_not_space hchain hc
    by_contra hws
    rw [Bool.not_eq_false] at hws
    have hmem : c ∈ (normalizeStem isE s).take 100 :=
      (rsplit1Pre _).subset (memOfGetLast hc)
    exact hne (normalizeStem_ws_space ((takePre 100 _).subset hmem) hws)
  · rw [if_neg hlen] at hc
    exact normalizeStem_last hc

theorem cleanLen (isE : Char → Bool) (s : Str) :
    (clean_filename isE s).length ≤ 100 := by
  rw [clean_filename]
  by_cases hlen : 100 < (normalizeStem isE s).length
  · rw [if_pos hlen]
    have h1 := rsplit1_len ((normalizeStem isE s).take 100)
    rw [List.length_take] at h1
    omega
  · rw [if_neg hlen]; omega

/-- C4: for every input, `clean_filename`'s output contains none of the
characters `< > : " / \ | ? *` and no newline or carriage return, neither
starts nor ends with a whitespace character, and is at most 100 characters
long. -/
theorem C4_clean_filename_guarantees (isEmoji : Char → Bool) (s : Str) :
    (∀ c ∈ clean_filename isEmoji s, badChar c = false) ∧
    (∀ c, (clean_filename isEmoji s).head? = some c → isPySpace c = false) ∧
    (∀ c, (clean_filename isEmoji s).getLast? = some c → isPySpace c = false) ∧
    (clean_filename isEmoji s).length ≤ 100 :=
  ⟨fun _ hc => cleanNoBad hc, fun _ hc => cleanHeadWS hc,
   fun _ hc => cleanLastWS hc, cleanLen isEmoji s⟩

/-- Witness for C4 at a concrete input. -/
theorem C4_witness :
    (∀ c ∈ clean_filename isEmojiModel "  bad:file*name??  ".toList,
      badChar c = false) ∧
    (∀ c, (clean_filename isEmojiModel "  bad:file*name??  ".toList).head? = some c →
      isPySpace c = false) ∧
    (∀ c, (clean_filename isEmojiModel "  bad:file*name??  ".toList).getLast? = some c →
      isPySpace c = false) ∧
    (clean_filename isEmojiModel "  bad:file*name??  ".toList).length ≤ 100 :=
  C4_clean_filename_guarantees isEmojiModel "  bad:file*name??  ".toList

/-! ### When each normalizer stage is the identity -/

theorem filterEqSelf {p : Char → Bool} {l : Str} (h : ∀ c ∈ l, p c = true) :
    l.filter p = l :=
  List.filter_eq_self.mpr h

theorem replaceBadEqSelf {l : Str} (h : ∀ c ∈ l, badChar c = false) :
    replaceBad l = l := by
  rw [replaceBad]
  have hc : ∀ c ∈ l, (if badChar c then ' ' else c) = id c := by
    intro c hcm
    rw [if_neg (by rw [h c hcm]; exact Bool.false_ne_true)]
    rfl
  rw [List.map_congr_left hc, List.map_id]

theorem stripTrailingPunctEqSelf {l : Str}
    (h : ∀ c, l.getLast? = some c → isPunct c = false) :
    stripTrailingPunct l = l := by
  rw [stripTrailingPunct]
  rw [dropWhileEqSelf, List.reverse_reverse]
  intro c hc
  rw [List.head?_reverse] at hc
  exact h c hc

theorem collapseWSAuxEqSelf :
    ∀ (l : Str), (∀ c ∈ l, isPySpace c = true → c = ' ') →
      List.Chain' (fun a b => ¬(a = ' ' ∧ b = ' ')) l →
      (collapseWSAux false l = l ∧
        (l.head? ≠ some ' ' → collapseWSAux true l = l)) := by
  intro l
  induction l with
  | nil => intro _ _; exact ⟨rfl, fun _ => rfl⟩
  | cons a rest ih =>
    intro hws hch
    rw [List.chain'_cons'] at hch
    have ihr := ih (fun c hc hws' => hws c (List.mem_cons_of_mem a hc) hws') hch.2
    by_cases hs : isPySpace a = true
    · have ha : a = ' ' := hws a (List.mem_cons_self a rest) hs
      subst ha
      have hhead : rest.head? ≠ some ' ' := by
        intro hh
        exact hch.1 ' ' hh ⟨rfl, rfl⟩
      constructor
      · rw [collapseWSAux, if_pos hs, if_neg Bool.false_ne_true]
        rw [ihr.2 hhead]
      · intro hcontra
        rw [List.head?_cons] at hcontra
        exact absurd rfl hcontra
    · constructor
      · rw [collapseWSAux, if_neg hs, ihr.1]
      · intro _
        rw [collapseWSAux, if_neg hs, ihr.1]

theorem pyStripEqSelf {l : Str}
    (hh : ∀ c, l.head? = some c → isPySpace c = false)
    (hl : ∀ c, l.getLast? = some c → isPySpace c = false) :
    pyStrip l = l := by
  rw [pyStrip]
  rw [dropWhileEqSelf hh, dropWhileEqSelf, List.reverse_reverse]
  intro c hc
  rw [List.head?_reverse] at hc
  exact hl c hc

/-- C2 (counterexample): `clean_filename` is not idempotent.  On `"a. "` the
first pass keeps the trailing dot (it was followed by a space when trailing
punctuation was stripped), the second pass removes it. -/
theorem C2_counterexample :
    ¬(clean_filename isEmojiModel (clean_filename isEmojiModel "a. ".toList) =
        clean_filename isEmojiModel "a. ".toList) := by decide

/-- C2 (amended): `clean_filename` is idempotent on every input whose first
pass leaves no trailing punctuation character; in general a second pass may
strip trailing punctuation exposed by whitespace collapsing or truncation. -/
theorem C2_amended_idempotent (isE : Char → Bool) (s : Str)
    (hsp : isE ' ' = false)
    (hpunct : (clean_filename isE s).getLast?.all (fun c => !isPunct c) = true) :
    clean_filename isE (clean_filename isE s) = clean_filename isE s := by
  have hmem : ∀ c ∈ clean_filename isE s, c ∈ normalizeStem isE s :=
    fun c hc => (cleanPre isE s).subset hc
  have hpunct' : ∀ c, (clean_filename isE s).getLast? = some c → isPunct c = false := by
    intro c hc
    rw [hc] at hpunct
    simpa using hpunct
  have hstem : normalizeStem isE (clean_filename isE s) = clean_filename isE s := by
    unfold normalizeStem
    rw [filterEqSelf (fun c hc => by
      rw [Bool.not_eq_true']
      exact normalizeStem_no_emoji hsp (hmem c hc))]
    rw [replaceBadEqSelf (fun c hc => normalizeStem_no_bad (hmem c hc))]
    rw [stripTrailingPunctEqSelf hpunct']
    rw [collapseWS]
    rw [(collapseWSAuxEqSelf (clean_filename isE s)
      (fun c hc hws => normalizeStem_ws_space (hmem c hc) hws)
      (chainPre (normalizeStem_chain isE s) (cleanPre isE s))).1]
    exact pyStripEqSelf (fun c hc => cleanHeadWS hc) (fun c hc => cleanLastWS hc)
  rw [clean_filename, hstem]
  rw [if_neg (by have := cleanLen isE s; omega)]

/-- Witness for the amended C2 at a concrete input. -/
theorem C2_amended_witness :
    clean_filename isEmojiModel (clean_filename isEmojiModel "hello world".toList) =
      clean_filename isEmojiModel "hello world".toList :=
  C2_amended_idempotent isEmojiModel "hello world".toList (by decide) (by decide)

theorem dropWhileSpaceCons {t : Str} (hcon : t.contains ' ' = true) :
    ' ' :: (t.reverse.dropWhile (fun c => c != ' ')).tail =
      t.reverse.dropWhile (fun c => c != ' ') := by
  have hne : t.reverse.dropWhile (fun c => c != ' ') ≠ [] := by
    intro hnil
    rw [List.dropWhile_eq_nil_iff] at hnil
    have hm : (' ' : Char) ∈ t.reverse := by
      rw [List.mem_reverse]; exact List.elem_iff.mp hcon
    have := hnil _ hm
    simp at this
  obtain ⟨x, hx⟩ := Option.ne_none_iff_exists'.mp
    (fun hno => hne (List.head?_eq_none_iff.mp hno))
  have hxsp : x = ' ' := by
    have := headDropWhileFalse (fun c => c != ' ') t.reverse hx
    simpa using this
  subst hxsp
  exact List.cons_head?_tail (by rw [hx]; rfl)

theorem rsplit1_space {t : Str} (hcon : t.contains ' ' = true) :
    rsplit1 t ++ [' '] <+: t := by
  rw [rsplit1, if_pos hcon]
  have hcons := dropWhileSpaceCons hcon
  have hsplit := List.takeWhile_append_dropWhile
    (p := fun c => c != ' ') (l := t.reverse)
  refine ⟨(t.reverse.takeWhile (fun c => c != ' ')).reverse, ?_⟩
  rw [← List.reverse_cons, hcons, ← List.reverse_append, hsplit,
    List.reverse_reverse]

/-- C3 (counterexample): on an input that normalizes to 101 copies of `a`
(a single word longer than the cap), the truncated prefix holds no space, so
the returned stem is a mid-word cut: it is neither the whole normalized stem
nor a space-boundary cut of it. -/
theorem C3_counterexample :
    100 < (normalizeStem isEmojiModel (List.replicate 101 'a')).length ∧
    clean_filename isEmojiModel (List.replicate 101 'a') ≠
      normalizeStem isEmojiModel (List.replicate 101 'a') ∧
    ¬(clean_filename isEmojiModel (List.replicate 101 'a') ++ [' '] <+:
        normalizeStem isEmojiModel (List.replicate 101 'a')) := by decide

/-- C3 (amended): when the normalized stem exceeds 100 characters the result
is the 100-character prefix cut back at its last space; the cut lands on a
word boundary whenever the truncated prefix holds a space, but when it holds
none the whole 100-character prefix is returned, cutting mid-word. -/
theorem C3_amended_truncation (isE : Char → Bool) (s : Str)
    (hlen : 100 < (normalizeStem isE s).length) :
    clean_filename isE s = rsplit1 ((normalizeStem isE s).take 100) ∧
    (((normalizeStem isE s).take 100).contains ' ' = true →
      clean_filename isE s ++ [' '] <+: normalizeStem isE s) := by
  constructor
  · rw [clean_filename, if_pos hlen]
  · intro hcon
    rw [clean_filename, if_pos hlen]
    exact (rsplit1_space hcon).trans (takePre 100 _)

/-- Witness for the amended C3 at a concrete input. -/
theorem C3_amended_witness :
    clean_filename isEmojiModel
        (List.replicate 60 'a' ++ ' ' :: List.replicate 60 'b') =
      rsplit1 ((normalizeStem isEmojiModel
        (List.replicate 60 'a' ++ ' ' :: List.replicate 60 'b')).take 100) ∧
    clean_filename isEmojiModel
        (List.replicate 60 'a' ++ ' ' :: List.replicate 60 'b') ++ [' '] <+:
      normalizeStem isEmojiModel
        (List.replicate 60 'a' ++ ' ' :: List.replicate 60 'b') :=
  ⟨(C3_amended_truncation isEmojiModel
      (List.replicate 60 'a' ++ ' ' :: List.replicate 60 'b') (by decide)).1,
   (C3_amended_truncation isEmojiModel
      (List.replicate 60 'a' ++ ' ' :: List.replicate 60 'b') (by decide)).2
      (by decide)⟩

/-- C7: a bold or italic element wraps the trimmed recursively-converted
inner content in its markers, and emits nothing at all when that trimmed
content is empty, so no empty marker pair ever appears. -/
theorem C7_empty_emphasis (name : Str) (attrs : List (Str × Str)) (cs : List Node)
    (h : name = "strong".toList ∨ name = "b".toList ∨
         name = "em".toList ∨ name = "i".toList) :
    convertChild (.elem name attrs cs) =
      (if pyStrip (convertChildren cs) = [] then []
       else emphMarker name ++ pyStrip (convertChildren cs) ++ emphMarker name) := by
  rcases h with h | h | h | h <;> subst h
  · have hm : emphMarker "strong".toList = "**".toList := by
      rw [emphMarker, if_pos (Or.inl rfl)]
    rw [convertChild, if_pos (Or.inl rfl), hm]
  · have hm : emphMarker "b".toList = "**".toList := by
      rw [emphMarker, if_pos (Or.inr rfl)]
    rw [convertChild, if_pos (Or.inr rfl), hm]
  · have hm : emphMarker "em".toList = "*".toList := by
      rw [emphMarker, if_neg (by decide)]
    rw [convertChild, if_neg (by decide), if_pos (Or.inl rfl), hm]
  · have hm : emphMarker "i".toList = "*".toList := by
      rw [emphMarker, if_neg (by decide)]
    rw [convertChild, if_neg (by decide), if_pos (Or.inr rfl), hm]

/-- Witness for C7 at concrete inputs. -/
theorem C7_witness :
    convertChild (.elem "b".toList [] [.text "  x  ".toList]) =
      (if pyStrip (convertChildren [Node.text "  x  ".toList]) = [] then []
       else emphMarker "b".toList ++
         pyStrip (convertChildren [Node.text "  x  ".toList]) ++
         emphMarker "b".toList) :=
  C7_empty_emphasis "b".toList [] [.text "  x  ".toList] (Or.inr (Or.inl rfl))

/-- C10: a hyperlink element with non-empty visible text but an empty or
missing target emits nothing (its text is dropped), while an element of any
unhandled kind falls back to converting its children. -/
theorem C10_bare_link_dropped :
    (∀ (attrs : List (Str × Str)) (cs : List Node),
      pyStrip (getTextList cs) ≠ [] → getAttr attrs "href".toList = [] →
      convertChild (.elem "a".toList attrs cs) = []) ∧
    (∀ (name : Str) (attrs : List (Str × Str)) (cs : List Node),
      name ∉ handledNames →
      convertChild (.elem name attrs cs) = convertChildren cs) := by
  constructor
  · intro attrs cs htext hhref
    rw [convertChild, if_neg (by decide), if_neg (by decide),
      if_neg (by decide), if_neg (by decide), if_pos rfl]
    dsimp only
    rw [if_neg (fun hand => hand.2 hhref), if_neg (fun hne => hne hhref)]
  · intro name attrs cs h
    simp only [handledNames, List.mem_cons, not_or, List.not_mem_nil,
      or_false] at h
    obtain ⟨h1, h2, h3, h4, h5, h6, h7, h8, h9, h10, h11, h12⟩ := h
    rw [convertChild, if_neg (not_or.mpr ⟨h1, h2⟩), if_neg (not_or.mpr ⟨h3, h4⟩),
      if_neg h5, if_neg h6, if_neg h7, if_neg h8, if_neg h9, if_neg h10,
      if_neg h11, if_neg h12]

/-- Witness for C10 at concrete inputs. -/
theorem C10_witness :
    convertChild (.elem "a".toList [] [.text "click here".toList]) = [] ∧
    convertChild (.elem "span".toList [] [.text "kept".toList]) =
      convertChildren [Node.text "kept".toList] :=
  ⟨C10_bare_link_dropped.1 [] [.text "click here".toList] (by decide) (by decide),
   C10_bare_link_dropped.2 "span".toList [] [.text "kept".toList] (by decide)⟩

/-- C8: the date is extracted from the first whitespace token of the date
element's `title` attribute parsed as `%d.%m.%Y` and formatted `%Y-%m-%d`;
a missing element, an empty token list or a parse failure each yield an
absent date, and the date element never influences the extracted title. -/
theorem C8_date_parsing :
    extract_date_str none = none ∧
    (∀ d : Node, pySplit (getAttr (attrsOf d) "title".toList) = [] →
      extract_date_str (some d) = none) ∧
    (∀ (d : Node) (tok : Str) (toks : List Str),
      pySplit (getAttr (attrsOf d) "title".toList) = tok :: toks →
      strptimeDMY tok = none → extract_date_str (some d) = none) ∧
    (∀ (d : Node) (tok : Str) (toks : List Str) (x : Nat × Nat × Nat),
      pySplit (getAttr (attrsOf d) "title".toList) = tok :: toks →
      strptimeDMY tok = some x → extract_date_str (some d) = some (formatYMD x)) ∧
    (∀ (msg : Message) (dd : Option Node),
      (extract_title_and_date msg).1 =
        (extract_title_and_date { msg with date_div := dd }).1) := by
  refine ⟨rfl, ?_, ?_, ?_, ?_⟩
  · intro d h
    rw [extract_date_str, h]
  · intro d tok toks h hp
    rw [extract_date_str, h]
    dsimp only
    rw [hp]
  · intro d tok toks x h hp
    rw [extract_date_str, h]
    dsimp only
    rw [hp]
  · intro msg dd
    rcases msg with ⟨td, fn, dv⟩
    cases td with
    | none => rfl
    | some t =>
      cases hfl : extract_first_meaningful_line (convert_tag_to_md t) <;>
        simp [extract_title_and_date, hfl]

/-- Witness for C8 at concrete inputs. -/
theorem C8_witness :
    extract_date_str (some dateDivEx) = some "2024-03-15".toList ∧
    extract_date_str (some badDateDiv) = none :=
  ⟨C8_date_parsing.2.2.2.1 dateDivEx "15.03.2024".toList
      ["12:30:00".toList, "UTC+03:00".toList] (15, 3, 2024) (by decide) (by decide),
   C8_date_parsing.2.2.1 badDateDiv "March".toList ["15".toList, "2024".toList]
      (by decide) (by decide)⟩

/-- C9: the pipeline's emptiness skip inspects the body's raw concatenated
text, not its markdown conversion; a body whose raw text strips to empty is
skipped (the state is unchanged) even when its conversion is non-empty, as
for a body holding only a hyperlink with a target and no visible text. -/
theorem C9_skip_uses_raw_text :
    (∀ (st : PState) (msg : Message) (td : Node), msg.text_div = some td →
      pyStrip (get_text td) = [] → step st msg = st) ∧
    (pyStrip (get_text linkOnlyBody) = [] ∧
      convert_tag_to_md linkOnlyBody ≠ []) := by
  constructor
  · intro st msg td htd hstrip
    rcases msg with ⟨td?, fn, dd⟩
    cases td? with
    | none => rfl
    | some td' =>
      rw [Option.some.injEq] at htd
      subst htd
      rw [step.eq_def]
      dsimp only
      rw [if_pos hstrip]
  · exact ⟨by decide, by decide⟩

/-- Witness for C9 at a concrete input. -/
theorem C9_witness :
    step initState ⟨some linkOnlyBody, none, none⟩ = initState :=
  C9_skip_uses_raw_text.1 initState ⟨some linkOnlyBody, none, none⟩ linkOnlyBody
    rfl (by decide)

/-- C1 (code divergence): `last_author` is initialized to the sentinel but
never reassigned in the loop, so a message with no author element is
attributed "Unknown Author" even immediately after a message whose explicit
author is "Alice", and the carried state still holds the sentinel. -/
theorem C1_author_not_carried :
    (runPipeline [msgAlice, msgNoAuthor]).outputs.map Prod.snd =
      ["---\nauthor: \"Alice\"\n---\n\nAlpha note from the morning".toList,
       "---\nauthor: \"Unknown Author\"\n---\n\nBeta note from the evening".toList] ∧
    (runPipeline [msgAlice, msgNoAuthor]).last_author = "Unknown Author".toList := by
  decide

theorem step_spec (st : PState) (msg : Message) :
    (filenameOf? msg = none → step st msg = st) ∧
    (∀ f, filenameOf? msg = some f → f ∈ st.used → step st msg = st) ∧
    (∀ f, filenameOf? msg = some f → f ∉ st.used →
      ∃ content, step st msg =
        { st with used := f :: st.used,
                  outputs := st.outputs ++ [(f, content)],
                  count := st.count + 1 }) := by
  rcases msg with ⟨td?, fn?, dd?⟩
  cases td? with
  | none =>
    refine ⟨fun _ => rfl, fun f hf _ => ?_, fun f hf _ => ?_⟩ <;>
      simp [filenameOf?] at hf
  | some td =>
    by_cases hstrip : pyStrip (get_text td) = []
    · have hfn : filenameOf? ⟨some td, fn?, dd?⟩ = none := by
        rw [filenameOf?.eq_def]
        dsimp only
        rw [if_pos hstrip]
      have hst : step st ⟨some td, fn?, dd?⟩ = st := by
        rw [step.eq_def]
        dsimp only
        rw [if_pos hstrip]
      refine ⟨fun _ => hst, fun f _ _ => hst, fun f hf _ => ?_⟩
      rw [hfn] at hf
      exact absurd hf (by simp)
    · rcases hex : extract_title_and_date ⟨some td, fn?, dd?⟩ with ⟨t?, d?⟩
      cases t? with
      | none =>
        have hfn : filenameOf? ⟨some td, fn?, dd?⟩ = none := by
          rw [filenameOf?.eq_def]
          dsimp only
          rw [if_neg hstrip, hex]
        have hst : step st ⟨some td, fn?, dd?⟩ = st := by
          rw [step.eq_def]
          dsimp only
          rw [if_neg hstrip]
          rw [hex]
        refine ⟨fun _ => hst, fun f _ _ => hst, fun f hf _ => ?_⟩
        rw [hfn] at hf
        exact absurd hf (by simp)
      | some t =>
        by_cases ht : t = []
        · subst ht
          have hfn : filenameOf? ⟨some td, fn?, dd?⟩ = none := by
            rw [filenameOf?.eq_def]
            dsimp only
            rw [if_neg hstrip, hex]
            dsimp only
            rw [if_pos rfl]
          have hst : step st ⟨some td, fn?, dd?⟩ = st := by
            rw [step.eq_def]
            dsimp only
            rw [if_neg hstrip]
            rw [hex]
            dsimp only
            rw [if_pos rfl]
          refine ⟨fun _ => hst, fun f _ _ => hst, fun f hf _ => ?_⟩
          rw [hfn] at hf
          exact absurd hf (by simp)
        · have hfn : filenameOf? ⟨some td, fn?, dd?⟩ = some (t ++ ".md".toList) := by
            rw [filenameOf?.eq_def]
            dsimp only
            rw [if_neg hstrip, hex]
            dsimp only
            rw [if_neg ht]
          refine ⟨fun hnone => ?_, fun f hf hmem => ?_, fun f hf hmem => ?_⟩
          · rw [hfn] at hnone
            exact absurd hnone (by simp)
          · rw [hfn, Option.some.injEq] at hf
            subst hf
            rw [step.eq_def]
            dsimp only
            rw [if_neg hstrip]
            rw [hex]
            dsimp only
            rw [if_neg ht, if_pos hmem]
          · rw [hfn, Option.some.injEq] at hf
            subst hf
            exact ⟨_, by
              rw [step.eq_def]
              dsimp only
              rw [if_neg hstrip]
              rw [hex]
              dsimp only
              rw [if_neg ht, if_neg hmem]⟩

theorem step_used_mono (st : PState) (msg : Message) :
    st.used ⊆ (step st msg).used := by
  obtain ⟨h0, h1, h2⟩ := step_spec st msg
  cases hfn : filenameOf? msg with
  | none => rw [h0 hfn]; exact fun x hx => hx
  | some f =>
    by_cases hmem : f ∈ st.used
    · rw [h1 f hfn hmem]; exact fun x hx => hx
    · obtain ⟨content, hc⟩ := h2 f hfn hmem
      rw [hc]
      intro x hx
      exact List.mem_cons_of_mem f hx

theorem step_inv {st : PState} (msg : Message)
    (h1 : (st.outputs.map Prod.fst).Nodup)
    (h2 : ∀ f ∈ st.outputs.map Prod.fst, f ∈ st.used) :
    ((step st msg).outputs.map Prod.fst).Nodup ∧
    ∀ f ∈ (step st msg).outputs.map Prod.fst, f ∈ (step st msg).used := by
  obtain ⟨h0, hA, hB⟩ := step_spec st msg
  cases hfn : filenameOf? msg with
  | none => rw [h0 hfn]; exact ⟨h1, h2⟩
  | some f =>
    by_cases hmem : f ∈ st.used
    · rw [hA f hfn hmem]; exact ⟨h1, h2⟩
    · obtain ⟨content, hc⟩ := hB f hfn hmem
      rw [hc]
      constructor
      · dsimp only
        rw [List.map_append]
        refine List.Nodup.append h1 (List.nodup_singleton f) ?_
        intro a ha haf
        rw [List.map_singleton, List.mem_singleton] at haf
        subst haf
        exact hmem (h2 a ha)
      · intro g hg
        dsimp only at hg ⊢
        rw [List.map_append] at hg
        rcases List.mem_append.mp hg with hg | hg
        · exact List.mem_cons_of_mem f (h2 g hg)
        · rw [List.map_singleton, List.mem_singleton] at hg
          subst hg
          exact List.mem_cons_self _ _

theorem foldl_inv (msgs : List Message) :
    ∀ st : PState, (st.outputs.map Prod.fst).Nodup →
      (∀ f ∈ st.outputs.map Prod.fst, f ∈ st.used) →
      (((msgs.foldl step st).outputs.map Prod.fst).Nodup ∧
        ∀ f ∈ (msgs.foldl step st).outputs.map Prod.fst,
          f ∈ (msgs.foldl step st).used) := by
  induction msgs with
  | nil => intro st hn hm; exact ⟨hn, hm⟩
  | cons m rest ih =>
    intro st hn hm
    rw [List.foldl_cons]
    obtain ⟨hn', hm'⟩ := step_inv m hn hm
    exact ih (step st m) hn' hm'

/-- C5: within one run the pipeline writes at most one document per filename
(the emitted filenames are pairwise distinct), the filename registry only
grows at each step, and a message whose derived filename is already
registered leaves the state untouched (dropped silently, so of two messages
with the same derived filename only the first in document order is written). -/
theorem C5_first_wins (msgs : List Message) (st : PState) (msg : Message)
    (f : Str) :
    ((runPipeline msgs).outputs.map Prod.fst).Nodup ∧
    st.used ⊆ (step st msg).used ∧
    (filenameOf? msg = some f → f ∈ st.used → step st msg = st) := by
  refine ⟨?_, step_used_mono st msg,
    fun hf hmem => (step_spec st msg).2.1 f hf hmem⟩
  exact (foldl_inv msgs initState (by simp [initState]) (by simp [initState])).1

/-- Witness for C5 at a concrete duplicate-message run. -/
theorem C5_witness :
    ((runPipeline [dupMsg, dupMsg]).outputs.map Prod.fst).Nodup ∧
    (runPipeline [dupMsg]).used ⊆ (step (runPipeline [dupMsg]) dupMsg).used ∧
    step (runPipeline [dupMsg]) dupMsg = runPipeline [dupMsg] :=
  ⟨(C5_first_wins [dupMsg, dupMsg] (runPipeline [dupMsg]) dupMsg
      "duplicate message title line.md".toList).1,
   (C5_first_wins [dupMsg, dupMsg] (runPipeline [dupMsg]) dupMsg
      "duplicate message title line.md".toList).2.1,
   (C5_first_wins [dupMsg, dupMsg] (runPipeline [dupMsg]) dupMsg
      "duplicate message title line.md".toList).2.2 (by decide) (by decide)⟩

theorem clampRun_fst (p : Char × Nat) : (clampRun p).1 = p.1 := by
  rw [clampRun]; split <;> rfl

theorem clampRun_one (c : Char) : clampRun (c, 1) = (c, 1) := by
  rw [clampRun]
  exact if_neg (fun hand => absurd hand.2 (by omega))

theorem emitNL_eq (k : Nat) :
    emitNL k = List.replicate (if 3 ≤ k then 2 else k) '\n' := by
  rw [emitNL]
  split
  · rfl
  · rfl

theorem rle_replicate (c : Char) : ∀ k : Nat,
    rle (List.replicate k c) = if k = 0 then [] else [(c, k)] := by
  intro k
  induction k with
  | zero => rfl
  | succ n ih =>
    rw [List.replicate_succ, rle, ih]
    by_cases hn : n = 0
    · subst hn
      rfl
    · rw [if_neg hn]
      dsimp only
      rw [if_pos rfl, if_neg (Nat.succ_ne_zero n)]

theorem rle_cons_head (c : Char) (l : Str) :
    ∃ m t, rle (c :: l) = (c, m) :: t := by
  rw [rle]
  cases h : rle l with
  | nil => exact ⟨1, [], rfl⟩
  | cons p tl =>
    rcases p with ⟨d, k⟩
    by_cases hc : c = d
    · exact ⟨k + 1, tl, by dsimp only; rw [if_pos hc]⟩
    · exact ⟨1, (d, k) :: tl, by dsimp only; rw [if_neg hc]⟩

theorem rle_replicate_append (a c : Char) (hca : c ≠ a) (l : Str) :
    ∀ k : Nat, rle (List.replicate k a ++ c :: l) =
      (if k = 0 then [] else [(a, k)]) ++ rle (c :: l) := by
  intro k
  induction k with
  | zero => simp
  | succ n ih =>
    rw [List.replicate_succ, List.cons_append, rle, ih]
    obtain ⟨m, t, hm⟩ := rle_cons_head c l
    by_cases hn : n = 0
    · subst hn
      rw [if_pos rfl, List.nil_append, hm]
      dsimp only
      rw [if_neg (fun h => hca h.symm), if_neg (Nat.succ_ne_zero 0),
        List.singleton_append, ← hm]
    · rw [if_neg hn, List.singleton_append]
      dsimp only
      rw [if_pos rfl, if_neg (Nat.succ_ne_zero n), List.singleton_append]

theorem rle_cons_map_clamp (c : Char) (hc : c ≠ '\n') (L rest : Str)
    (hL : rle L = (rle rest).map clampRun) :
    rle (c :: L) = (rle (c :: rest)).map clampRun := by
  rw [rle, rle, hL]
  cases hr : rle rest with
  | nil =>
    rw [List.map_nil]
    dsimp only
    rw [List.map_cons, List.map_nil, clampRun_one]
  | cons p tl =>
    rcases p with ⟨d, m⟩
    rcases hcl : clampRun (d, m) with ⟨d', m'⟩
    have hd' : d' = d := by
      have hfst := clampRun_fst (d, m)
      rw [hcl] at hfst
      exact hfst
    rw [hd'] at hcl
    rw [List.map_cons, hcl]
    dsimp only
    by_cases hcd : c = d
    · rw [if_pos hcd, if_pos hcd, List.map_cons]
      have hm' : m' = m := by
        rw [clampRun, if_neg (fun hand => hc (hcd.trans hand.1))] at hcl
        exact ((Prod.mk.injEq _ _ _ _).mp hcl.symm).2
      subst hm'
      rw [clampRun, if_neg (fun hand => hc hand.1)]
    · rw [if_neg hcd, if_neg hcd, List.map_cons, List.map_cons, hcl,
        clampRun_one]

theorem collapseNLAux_rle : ∀ (l : Str) (k : Nat),
    rle (collapseNLAux k l) =
      (rle (List.replicate k '\n' ++ l)).map clampRun := by
  intro l
  induction l with
  | nil =>
    intro k
    rw [collapseNLAux, List.append_nil, emitNL_eq, rle_replicate, rle_replicate]
    by_cases h3 : 3 ≤ k
    · rw [if_pos h3, if_neg (by omega : ¬(2 : Nat) = 0),
        if_neg (by omega : ¬k = 0), List.map_cons, List.map_nil,
        clampRun, if_pos ⟨rfl, h3⟩]
    · rw [if_neg h3]
      by_cases hk : k = 0
      · subst hk
        rfl
      · rw [if_neg hk, List.map_cons, List.map_nil, clampRun,
          if_neg (fun hand => h3 hand.2)]
  | cons c rest ih =>
    intro k
    by_cases hc : c = '\n'
    · subst hc
      rw [collapseNLAux, if_pos rfl, ih (k + 1)]
      have hrep : List.replicate k '\n' ++ '\n' :: rest =
          List.replicate (k + 1) '\n' ++ rest := by
        rw [List.replicate_succ', List.append_assoc, List.singleton_append]
      rw [hrep]
    · rw [collapseNLAux, if_neg hc, emitNL_eq]
      rw [rle_replicate_append '\n' c hc _, rle_replicate_append '\n' c hc _]
      rw [List.map_append]
      have hF := rle_cons_map_clamp c hc (collapseNLAux 0 rest) rest
        (by
          have ih0 := ih 0
          rw [List.replicate_zero, List.nil_append] at ih0
          exact ih0)
      rw [hF]
      congr 1
      by_cases h3 : 3 ≤ k
      · rw [if_pos h3, if_neg (by omega : ¬(2 : Nat) = 0),
          if_neg (by omega : ¬k = 0), List.map_cons, List.map_nil,
          clampRun, if_pos ⟨rfl, h3⟩]
      · rw [if_neg h3]
        by_cases hk : k = 0
        · subst hk
          rfl
        · rw [if_neg hk, List.map_cons, List.map_nil, clampRun,
            if_neg (fun hand => h3 hand.2)]

/-- C6: the pipeline's newline collapse rewrites every run of three or more
consecutive newlines to exactly two and leaves every other run (newline runs
of length one or two, and all runs of other characters) unchanged, stated
via run-length encodings. -/
theorem C6_newline_collapse (s : Str) :
    rle (collapseNewlines s) = (rle s).map clampRun := by
  have h := collapseNLAux_rle s 0
  rw [List.replicate_zero, List.nil_append] at h
  exact h
